import Mathlib

/-!
Verification of the gitoxide pack storage engine against its specification.

The definitions below are shallow embeddings of the Rust sources:
  * `src/git-pack/src/index/write/encode.rs` (fan-out table and v2 index encoder),
  * `src/git-pack/src/bundle/write/mod.rs` (bundle writer orchestration),
  * `src/git-pack/src/index/traverse/with_index.rs` (traversal with index).

Machine integers are modelled as `Nat` with explicit bounds where overflow or
capacity limits matter; fallible Rust code (panics, `assert!`, `?`) is modelled
with `Option`/`Except`.
-/

namespace Gitoxide

/-! ## encode.rs: constants -/

/-- Constant `LARGE_OFFSET_THRESHOLD: u64 = 0x7fff_ffff` from encode.rs. -/
def LARGE_OFFSET_THRESHOLD : Nat := 0x7fffffff

/-- Constant `HIGH_BIT: u32 = 0x8000_0000` from encode.rs. -/
def HIGH_BIT : Nat := 0x80000000

/-- Value of `u32::MAX`. -/
def U32_MAX : Nat := 0xffffffff

/-! ## encode.rs: the fan-out table

`fanout` in encode.rs consumes `iter.enumerate()` over the first bytes of the
sorted ids.  We model the enumerated iterator by a `List (Nat × Nat)` of
`(index, first_byte)` pairs; the peeked element `idx_and_entry` is an
`Option (Nat × Nat)`.  The `unreachable!` branch (ids out of order) is
modelled by returning `none`. -/

/-- Model of `iter.find (fun e => e.first_byte != byte)`: skips elements whose byte
component equals `byte`, returning the first other element together with the
remaining iterator. -/
def findNe (byte : Nat) : List (Nat × Nat) → Option ((Nat × Nat) × List (Nat × Nat))
  | [] => none
  | e :: rest => if e.2 = byte then findNe byte rest else some (e, rest)

/-- One pass of the `for (offset_be, byte) in fan_out.iter_mut().zip(0u8..=255)`
loop of `fanout` in encode.rs.  `bytes` is the remaining byte range, `cur` the
peeked enumerated entry (`idx_and_entry`), `rest` the rest of the iterator,
`upper` the `upper_bound` variable and `total` the `entries_len`.  Returns the
fan-out values produced for `bytes`, or `none` upon the `unreachable!` branch
(first byte of the current id smaller than the loop byte). -/
def fanoutLoop : List Nat → Option (Nat × Nat) → List (Nat × Nat) → Nat → Nat →
    Option (List Nat)
  | [], _, _, _, _ => some []
  | b :: bs, cur, rest, upper, total =>
    match cur with
    | none => (fanoutLoop bs none rest upper total).map (fun l => total :: l)
    | some (i, fb) =>
      if fb < b then
        none
      else if b < fb then
        (fanoutLoop bs (some (i, fb)) rest upper total).map (fun l => upper :: l)
      else if b = 255 then
        (fanoutLoop bs (some (i, fb)) rest upper total).map (fun l => total :: l)
      else
        match findNe b rest with
        | some (e, rest2) => (fanoutLoop bs (some e) rest2 e.1 total).map (fun l => e.1 :: l)
        | none => (fanoutLoop bs none [] total total).map (fun l => total :: l)

/-- Function `fanout(iter)` from encode.rs over the list of first bytes of the sorted
ids.  Produces the 256 cumulative counts, or `none` if the `unreachable!`
panic for unsorted input would fire. -/
def fanout (firstBytes : List Nat) : Option (List Nat) :=
  match firstBytes.enum with
  | [] => fanoutLoop (List.range 256) none [] 0 firstBytes.length
  | e :: rest => fanoutLoop (List.range 256) (some e) rest 0 firstBytes.length

/-- Specification-level count: the number of entries whose first byte is `≤ b`. -/
def countLe (firstBytes : List Nat) (b : Nat) : Nat :=
  firstBytes.countP (fun x => decide (x ≤ b))

theorem countLe_eq_length {l : List Nat} {b : Nat} (h : ∀ x ∈ l, x ≤ b) :
    countLe l b = l.length := by
  unfold countLe
  rw [List.countP_eq_length]
  intro a ha
  simpa using h a ha

theorem countLe_mono (l : List Nat) {b1 b2 : Nat} (h : b1 ≤ b2) :
    countLe l b1 ≤ countLe l b2 := by
  unfold countLe
  apply List.countP_mono_left
  intro x hx hb
  simp only [decide_eq_true_eq] at hb ⊢
  exact Nat.le_trans hb h

/-- Lemma: `findNe` skips a block of entries whose byte equals `b` and returns the
first entry past it, together with the remaining iterator. -/
theorem findNe_enumFrom_split (b : Nat) :
    ∀ (blk : List Nat) (u : Nat) (y : Nat) (ys : List Nat),
      (∀ x ∈ blk, x = b) → y ≠ b →
      findNe b (List.enumFrom u (blk ++ y :: ys)) =
        some ((u + blk.length, y), List.enumFrom (u + blk.length + 1) ys)
  | [], u, y, ys, _, hy => by
    simp [List.enumFrom, findNe, hy]
  | a :: blk, u, y, ys, hblk, hy => by
    have ha : a = b := hblk a (by simp)
    have h1 : findNe b (List.enumFrom u ((a :: blk) ++ y :: ys)) =
        findNe b (List.enumFrom (u + 1) (blk ++ y :: ys)) := by
      rw [List.cons_append]
      show (if (u, a).2 = b then findNe b (List.enumFrom (u + 1) (blk ++ y :: ys))
        else some ((u, a), List.enumFrom (u + 1) (blk ++ y :: ys))) = _
      have hc : ((u, a).2 = b) := ha
      rw [if_pos hc]
    rw [h1, findNe_enumFrom_split b blk (u + 1) y ys (fun x hx => hblk x (by simp [hx])) hy]
    have hlen : u + (a :: blk).length = u + 1 + blk.length := by
      simp only [List.length_cons]
      omega
    rw [hlen]

/-- Lemma: `findNe` exhausts an iterator all of whose bytes equal `b`. -/
theorem findNe_enumFrom_all_eq (b : Nat) :
    ∀ (l : List Nat) (u : Nat), (∀ x ∈ l, x = b) →
      findNe b (List.enumFrom u l) = none
  | [], _, _ => rfl
  | a :: l, u, h => by
    have ha : a = b := h a (by simp)
    simp only [List.enumFrom, findNe, ha, if_pos rfl]
    exact findNe_enumFrom_all_eq b l (u + 1) (fun x hx => h x (by simp [hx]))

/-- A sorted list bounded below by `b` is either all `b`, or splits into a
block of `b` followed by a sorted tail strictly above `b`. -/
theorem sorted_split_eq (b : Nat) :
    ∀ (l : List Nat), (∀ x ∈ l, b ≤ x) → List.Pairwise (· ≤ ·) l →
      (∀ x ∈ l, x = b) ∨
      ∃ blk y ys, l = blk ++ y :: ys ∧ (∀ x ∈ blk, x = b) ∧ b < y ∧
        List.Pairwise (· ≤ ·) (y :: ys) ∧ (∀ x ∈ y :: ys, y ≤ x)
  | [], _, _ => Or.inl (by simp)
  | a :: l, hb, hp => by
    rcases List.pairwise_cons.mp hp with ⟨hal, hpl⟩
    by_cases ha : a = b
    · rcases sorted_split_eq b l (fun x hx => hb x (by simp [hx])) hpl with hall | hsplit
      · exact Or.inl (by
          intro x hx
          rcases List.mem_cons.mp hx with hx | hx
          · exact hx ▸ ha
          · exact hall x hx)
      · rcases hsplit with ⟨blk, y, ys, hl, hblk, hby, hpy, hybnd⟩
        refine Or.inr ⟨a :: blk, y, ys, by simp [hl], ?_, hby, hpy, hybnd⟩
        intro x hx
        rcases List.mem_cons.mp hx with hx | hx
        · exact hx ▸ ha
        · exact hblk x hx
    · refine Or.inr ⟨[], a, l, by simp, by simp, ?_, hp, ?_⟩
      · exact Nat.lt_of_le_of_ne (hb a (by simp)) (fun h => ha h.symm)
      · intro x hx
        rcases List.mem_cons.mp hx with hx | hx
        · exact hx ▸ Nat.le_refl a
        · exact hal x hx

theorem fanoutLoop_cons_none (b : Nat) (bs : List Nat) (rest : List (Nat × Nat))
    (upper total : Nat) :
    fanoutLoop (b :: bs) none rest upper total =
      (fanoutLoop bs none rest upper total).map (fun l => total :: l) := rfl

theorem fanoutLoop_cons_gt {fb b : Nat} (h : b < fb) (bs : List Nat) (i : Nat)
    (rest : List (Nat × Nat)) (upper total : Nat) :
    fanoutLoop (b :: bs) (some (i, fb)) rest upper total =
      (fanoutLoop bs (some (i, fb)) rest upper total).map (fun l => upper :: l) := by
  have h2 : ¬ fb < b := Nat.not_lt.mpr (Nat.le_of_lt h)
  simp [fanoutLoop, h2, h]

theorem fanoutLoop_cons_eq_255 (bs : List Nat) (i : Nat) (rest : List (Nat × Nat))
    (upper total : Nat) :
    fanoutLoop (255 :: bs) (some (i, 255)) rest upper total =
      (fanoutLoop bs (some (i, 255)) rest upper total).map (fun l => total :: l) := by
  simp [fanoutLoop]

theorem fanoutLoop_cons_eq_found {b : Nat} (hb : b ≠ 255) (bs : List Nat) (i : Nat)
    (rest : List (Nat × Nat)) (upper total : Nat) (e : Nat × Nat)
    (rest2 : List (Nat × Nat)) (hf : findNe b rest = some (e, rest2)) :
    fanoutLoop (b :: bs) (some (i, b)) rest upper total =
      (fanoutLoop bs (some e) rest2 e.1 total).map (fun l => e.1 :: l) := by
  simp [fanoutLoop, hb, hf]

theorem fanoutLoop_cons_eq_exhausted {b : Nat} (hb : b ≠ 255) (bs : List Nat) (i : Nat)
    (rest : List (Nat × Nat)) (upper total : Nat) (hf : findNe b rest = none) :
    fanoutLoop (b :: bs) (some (i, b)) rest upper total =
      (fanoutLoop bs none [] total total).map (fun l => total :: l) := by
  simp [fanoutLoop, hb, hf]

/-- Invariant lemma for the `fanout` loop: when the state has consumed exactly
the entries whose first byte is below the current loop byte `b`, the remaining
iterations produce the cumulative counts `countLe` at every subsequent byte. -/
theorem fanoutLoop_spec (fbs : List Nat) (hlt : ∀ x ∈ fbs, x < 256) :
    ∀ (n b : Nat), b + n ≤ 256 →
    ∀ (done pending : List Nat) (cur : Option (Nat × Nat)) (rest : List (Nat × Nat)),
      fbs = done ++ pending →
      (∀ x ∈ done, x < b) →
      (∀ x ∈ pending, b ≤ x) →
      List.Pairwise (· ≤ ·) pending →
      ((cur = none ∧ pending = [] ∧ rest = []) ∨
        (∃ fb tl, pending = fb :: tl ∧ cur = some (done.length, fb) ∧
          rest = List.enumFrom (done.length + 1) tl)) →
      fanoutLoop (List.range' b n) cur rest done.length fbs.length =
        some ((List.range' b n).map (countLe fbs)) := by
  intro n
  induction n with
  | zero =>
    intro b _ done pending cur rest _ _ _ _ _
    simp [fanoutLoop]
  | succ n ih =>
    intro b hb done pending cur rest hsplit hdone hpend hpair hcur
    rw [List.range'_succ, List.map_cons]
    rcases hcur with ⟨hc, hp, hr⟩ | ⟨fb, tl, hp, hc, hr⟩
    · subst hc; subst hp; subst hr
      rw [List.append_nil] at hsplit
      rw [fanoutLoop_cons_none]
      rw [ih (b + 1) (by omega) done [] none [] (by simp [hsplit])
        (fun x hx => Nat.lt_succ_of_lt (hdone x hx)) (by simp) List.Pairwise.nil
        (Or.inl ⟨rfl, rfl, rfl⟩)]
      have hcnt : countLe fbs b = fbs.length := by
        apply countLe_eq_length
        intro x hx
        rw [hsplit] at hx
        exact Nat.le_of_lt (hdone x hx)
      simp [hcnt]
    · subst hp; subst hc; subst hr
      have hfb_ge : b ≤ fb := hpend fb (by simp)
      have hfb_mem : fb ∈ fbs := by rw [hsplit]; simp
      have htl_ge : ∀ x ∈ tl, b ≤ x := fun x hx => hpend x (by simp [hx])
      rcases List.pairwise_cons.mp hpair with ⟨hfb_tl, htl_pair⟩
      by_cases hbfb : b < fb
      · -- Greater branch: the loop byte has not yet reached the current id.
        rw [fanoutLoop_cons_gt hbfb]
        have hpend1 : ∀ x ∈ fb :: tl, b + 1 ≤ x := by
          intro x hx
          rcases List.mem_cons.mp hx with hx | hx
          · omega
          · exact Nat.le_trans (by omega) (hfb_tl x hx)
        rw [ih (b + 1) (by omega) done (fb :: tl) (some (done.length, fb))
          (List.enumFrom (done.length + 1) tl) hsplit
          (fun x hx => Nat.lt_succ_of_lt (hdone x hx)) hpend1 hpair
          (Or.inr ⟨fb, tl, rfl, rfl, rfl⟩)]
        have hcnt : countLe fbs b = done.length := by
          rw [hsplit]
          unfold countLe
          rw [List.countP_append]
          have h1 : List.countP (fun x => decide (x ≤ b)) done = done.length :=
            List.countP_eq_length.mpr (fun a ha => by
              simpa using Nat.le_of_lt (hdone a ha))
          have h2 : List.countP (fun x => decide (x ≤ b)) (fb :: tl) = 0 :=
            List.countP_eq_zero.mpr (fun a ha => by
              rcases List.mem_cons.mp ha with ha | ha
              · subst ha; simpa using hbfb
              · simpa using Nat.lt_of_lt_of_le hbfb (hfb_tl a ha))
          rw [h1, h2]
          omega
        simp [hcnt]
      · -- Equal branch: the current id's first byte equals the loop byte.
        have hfb_eq : fb = b := Nat.le_antisymm (Nat.not_lt.mp hbfb) hfb_ge
        subst hfb_eq
        by_cases hb255 : fb = 255
        · subst hb255
          have hn : n = 0 := by omega
          subst hn
          rw [fanoutLoop_cons_eq_255]
          simp only [List.range'_zero, fanoutLoop, List.map_nil, Option.map_some]
          have hcnt : countLe fbs 255 = fbs.length :=
            countLe_eq_length (fun x hx => Nat.le_of_lt_succ (hlt x hx))
          simp [hcnt]
        · rcases sorted_split_eq fb tl htl_ge htl_pair with hall | hsplit2
          · -- the whole remaining iterator carries this byte
            rw [fanoutLoop_cons_eq_exhausted hb255 _ _ _ _ _
              (findNe_enumFrom_all_eq fb tl (done.length + 1) hall)]
            have hdone2 : fbs = (done ++ fb :: tl) ++ [] := by simp [hsplit]
            have hlen2 : fbs.length = (done ++ fb :: tl).length := by rw [hsplit]
            have hih := ih (fb + 1) (by omega) (done ++ fb :: tl) [] none [] hdone2
              (by
                intro x hx
                rcases List.mem_append.mp hx with hx | hx
                · exact Nat.lt_succ_of_lt (hdone x hx)
                · rcases List.mem_cons.mp hx with hx | hx
                  · omega
                  · rw [hall x hx]; omega)
              (by simp) List.Pairwise.nil (Or.inl ⟨rfl, rfl, rfl⟩)
            rw [← hlen2] at hih
            rw [hih]
            have hcnt : countLe fbs fb = fbs.length := by
              rw [hsplit]
              apply countLe_eq_length
              intro x hx
              rcases List.mem_append.mp hx with hx | hx
              · exact Nat.le_of_lt (hdone x hx)
              · rcases List.mem_cons.mp hx with hx | hx
                · omega
                · rw [hall x hx]
            simp [hcnt]
          · -- a strictly larger byte follows the block of equal bytes
            rcases hsplit2 with ⟨blk, y, ys, htl, hblk, hby, hpy, hybnd⟩
            subst htl
            have hfind := findNe_enumFrom_split fb blk (done.length + 1) y ys hblk
              (fun h => absurd h.symm (Nat.ne_of_lt hby))
            rw [fanoutLoop_cons_eq_found hb255 _ _ _ _ _ _ _ hfind]
            have hlen3 : done.length + 1 + blk.length = (done ++ fb :: blk).length := by
              simp only [List.length_append, List.length_cons]
              omega
            simp only [hlen3]
            have hsplit3 : fbs = (done ++ fb :: blk) ++ y :: ys := by
              rw [hsplit]; simp
            have hpend3 : ∀ x ∈ y :: ys, fb + 1 ≤ x := by
              intro x hx
              exact Nat.le_trans (by omega) (hybnd x hx)
            rw [ih (fb + 1) (by omega) (done ++ fb :: blk) (y :: ys)
              (some ((done ++ fb :: blk).length, y))
              (List.enumFrom ((done ++ fb :: blk).length + 1) ys) hsplit3
              (by
                intro x hx
                rcases List.mem_append.mp hx with hx | hx
                · exact Nat.lt_succ_of_lt (hdone x hx)
                · rcases List.mem_cons.mp hx with hx | hx
                  · omega
                  · rw [hblk x hx]; omega)
              hpend3 hpy (Or.inr ⟨y, ys, rfl, rfl, rfl⟩)]
            have hcnt : countLe fbs fb = (done ++ fb :: blk).length := by
              rw [hsplit3]
              unfold countLe
              rw [List.countP_append]
              have h1 : List.countP (fun x => decide (x ≤ fb)) (done ++ fb :: blk) =
                  (done ++ fb :: blk).length :=
                List.countP_eq_length.mpr (fun a ha => by
                  rcases List.mem_append.mp ha with ha | ha
                  · simpa using Nat.le_of_lt (hdone a ha)
                  · rcases List.mem_cons.mp ha with ha | ha
                    · simp [ha]
                    · simp [hblk a ha])
              have h2 : List.countP (fun x => decide (x ≤ fb)) (y :: ys) = 0 :=
                List.countP_eq_zero.mpr (fun a ha => by
                  simpa using Nat.lt_of_lt_of_le hby (hybnd a ha))
              rw [h1, h2]
              omega
            simp [hcnt]

/-- The fan-out function, on sorted first bytes below 256, computes exactly the
cumulative counts `countLe` at every byte. -/
theorem fanout_eq_map_countLe (fbs : List Nat) (hs : List.Pairwise (· ≤ ·) fbs)
    (hlt : ∀ x ∈ fbs, x < 256) :
    fanout fbs = some ((List.range 256).map (countLe fbs)) := by
  unfold fanout
  rw [List.range_eq_range']
  cases fbs with
  | nil =>
    simp only [List.enum_nil]
    exact fanoutLoop_spec [] (by simp) 256 0 (by omega) [] [] none [] rfl
      (by simp) (by simp) List.Pairwise.nil (Or.inl ⟨rfl, rfl, rfl⟩)
  | cons a tl =>
    simp only [List.enum_cons]
    have := fanoutLoop_spec (a :: tl) hlt 256 0 (by omega) [] (a :: tl)
      (some (0, a)) (List.enumFrom 1 tl) rfl (by simp) (by simp) hs
      (Or.inr ⟨a, tl, rfl, rfl, rfl⟩)
    simpa using this

/-! ## encode.rs: data model of the encoder input

`write_to` consumes `Vec<crate::cache::delta::Item<crate::index::write::TreeEntry>>`.
Only the fields used by encode.rs are modelled: `item.offset`, `item.data.id`
and `item.data.crc32`.  Object ids are byte lists. -/

/-- The per-object record carried into the index encoder (`TreeEntry`):
object id and CRC32 over the entry's on-disk bytes. -/
structure TreeEntry where
  id : List Nat
  crc32 : Nat
  deriving Repr, DecidableEq

/-- Structure `crate::cache::delta::Item` as used by encode.rs: pack offset plus data. -/
structure Item where
  offset : Nat
  data : TreeEntry
  deriving Repr, DecidableEq

/-- Model of `ObjectId::first_byte`: the first byte of the id. -/
def first_byte (id : List Nat) : Nat := id.headD 0

/-- Byte-wise lexicographic order on object ids, the order `entries_sorted_by_oid`
is sorted by. -/
def idLe (a b : List Nat) : Prop := a = b ∨ List.Lex (· < ·) a b

theorem idLe_first_byte {a b : List Nat} (h : idLe a b) : first_byte a ≤ first_byte b := by
  rcases h with h | h
  · exact h ▸ Nat.le_refl _
  · cases h with
    | nil => exact Nat.zero_le _
    | cons _ => exact Nat.le_refl _
    | rel hr => exact Nat.le_of_lt hr

/-- Claim C3: for every list of index entries whose object ids are sorted in
ascending order, `fanout` returns a 256-element table in which entry `b` is
the number of entries whose id's first byte is at most `b`; consequently the
table is monotonically non-decreasing and its entry 255 is the entry count. -/
theorem fanout_correct (entries : List Item)
    (hsorted : List.Pairwise (fun a b => idLe a.data.id b.data.id) entries)
    (hbyte : ∀ e ∈ entries, first_byte e.data.id < 256) :
    ∃ l, fanout (entries.map (fun e => first_byte e.data.id)) = some l ∧
      l.length = 256 ∧
      (∀ b, b < 256 →
        l[b]? = some (entries.countP (fun e => decide (first_byte e.data.id ≤ b)))) ∧
      List.Pairwise (· ≤ ·) l ∧
      l[255]? = some entries.length := by
  set fbs := entries.map (fun e => first_byte e.data.id) with hfbs
  have hs : List.Pairwise (· ≤ ·) fbs :=
    hsorted.map _ (fun a b h => idLe_first_byte h)
  have hlt : ∀ x ∈ fbs, x < 256 := by
    intro x hx
    rcases List.mem_map.mp hx with ⟨e, he, hex⟩
    exact hex ▸ hbyte e he
  refine ⟨(List.range 256).map (countLe fbs), fanout_eq_map_countLe fbs hs hlt, by simp, ?_, ?_, ?_⟩
  · intro b hb
    rw [List.getElem?_map, List.getElem?_range hb]
    simp only [Option.map_some']
    congr 1
    unfold countLe
    rw [hfbs, List.countP_map]
    rfl
  · exact (List.pairwise_lt_range 256).map _
      (fun a b h => countLe_mono fbs (Nat.le_of_lt h))
  · rw [List.getElem?_map, List.getElem?_range (by omega)]
    simp only [Option.map_some']
    congr 1
    rw [countLe_eq_length (fun x hx => Nat.le_of_lt_succ (hlt x hx)), hfbs,
      List.length_map]

/-- Sample entries for the fan-out witness. -/
def sampleEntries : List Item := [⟨5, ⟨[1, 170], 10⟩⟩, ⟨9, ⟨[2, 187], 11⟩⟩]

theorem fanout_correct_witness :
    ∃ l, fanout (sampleEntries.map (fun e => first_byte e.data.id)) = some l ∧
      l.length = 256 ∧
      (∀ b, b < 256 →
        l[b]? = some (sampleEntries.countP (fun e => decide (first_byte e.data.id ≤ b)))) ∧
      List.Pairwise (· ≤ ·) l ∧
      l[255]? = some sampleEntries.length :=
  fanout_correct sampleEntries
    (by
      refine List.Pairwise.cons ?_ (List.pairwise_singleton _ _)
      intro e he
      rw [List.mem_singleton.mp he]
      exact Or.inr (List.Lex.rel (by omega)))
    (by decide)

/-! ## encode.rs: the v2 index encoder `write_to` -/

/-- Big-endian bytes of a `u32` (`to_be_bytes`). -/
def be32 (n : Nat) : List Nat :=
  [n / 2 ^ 24 % 256, n / 2 ^ 16 % 256, n / 2 ^ 8 % 256, n % 256]

/-- Big-endian bytes of a `u64` (`to_be_bytes`). -/
def be64 (n : Nat) : List Nat :=
  [n / 2 ^ 56 % 256, n / 2 ^ 48 % 256, n / 2 ^ 40 % 256, n / 2 ^ 32 % 256,
   n / 2 ^ 24 % 256, n / 2 ^ 16 % 256, n / 2 ^ 8 % 256, n % 256]

/-- Constant `V2_SIGNATURE`: the magic bytes `\xFFtOc` of a v2 index file. -/
def V2_SIGNATURE : List Nat := [0xff, 0x74, 0x4f, 0x63]

/-- Modelled from the spec: `crate::index::Version`, the version of an index
file; only declarations of it reach this crate's sources here.  Per §4.7 only
V2 is writable; `kind as u32` serializes the version number. -/
inductive Version
  | V1
  | V2
  deriving Repr, DecidableEq

/-- The numeric value `kind as u32` written into the index header. -/
def Version.toU32 : Version → Nat
  | .V1 => 1
  | .V2 => 2

/-- The offset-writing loop of `write_to` in encode.rs: yields the
small-offset table bytes together with the accumulated `offsets64` vector, or
`none` when `assert!(offsets64.len() < LARGE_OFFSET_THRESHOLD)` fires. -/
def offsetTables : List Item → List Nat → Option (List Nat × List Nat)
  | [], offsets64 => some ([], offsets64)
  | entry :: rest, offsets64 =>
    if LARGE_OFFSET_THRESHOLD < entry.offset then
      if offsets64.length < LARGE_OFFSET_THRESHOLD then
        (offsetTables rest (offsets64 ++ [entry.offset])).map
          (fun p => (be32 (((offsets64 ++ [entry.offset]).length - 1) ||| HIGH_BIT) ++ p.1, p.2))
      else none
    else
      (offsetTables rest offsets64).map (fun p => (be32 entry.offset ++ p.1, p.2))

/-- Function `write_to` of encode.rs.  The byte sink, the `BufWriter` and the
`hash::Write` wrapper are modelled by assembling the byte sequence each
`write_all` emits, in source order; `digest` stands for the object-hash
function that `hash::Write` folds over every byte written through it (the
trailer itself is written past the hasher).  Returns the index-file bytes
paired with the returned index hash, or `none` where the source panics
(non-V2 version, more than `u32::MAX` entries, large-offset overflow,
unsorted ids). -/
def write_to (entries_sorted_by_oid : List Item) (pack_hash : List Nat)
    (kind : Version) (digest : List Nat → List Nat) : Option (List Nat × List Nat) :=
  if kind ≠ Version.V2 then none
  else if U32_MAX < entries_sorted_by_oid.length then none
  else
    match fanout (entries_sorted_by_oid.map (fun e => first_byte e.data.id)) with
    | none => none
    | some fan_out =>
      match offsetTables entries_sorted_by_oid [] with
      | none => none
      | some (small, offsets64) =>
        let body := V2_SIGNATURE ++ be32 kind.toU32
          ++ (fan_out.map be32).flatten
          ++ (entries_sorted_by_oid.map (fun e => e.data.id)).flatten
          ++ (entries_sorted_by_oid.map (fun e => be32 e.data.crc32)).flatten
          ++ small
          ++ (offsets64.map be64).flatten
          ++ pack_hash
        let index_hash := digest body
        some (body ++ index_hash, index_hash)

/-- Spec-level large-offset table: the offsets above the threshold, in the
order in which the entries reference them. -/
def largeOffsets (entries : List Item) : List Nat :=
  (entries.filter (fun e => decide (LARGE_OFFSET_THRESHOLD < e.offset))).map
    (fun e => e.offset)

/-- Spec-level value stored in the small-offset table for entry `e`, given the
entries `prior` that precede it: the offset itself when it fits, otherwise the
high bit combined with the index into the large-offset table. -/
def smallOffsetValue (prior : List Item) (e : Item) : Nat :=
  if LARGE_OFFSET_THRESHOLD < e.offset then (largeOffsets prior).length ||| HIGH_BIT
  else e.offset

/-- Spec-level small-offset table bytes, parameterised by the number `base` of
large offsets already referenced by earlier entries. -/
def smallTableBytes (base : Nat) : List Item → List Nat
  | [] => []
  | e :: rest =>
    if LARGE_OFFSET_THRESHOLD < e.offset then
      be32 (base ||| HIGH_BIT) ++ smallTableBytes (base + 1) rest
    else
      be32 e.offset ++ smallTableBytes base rest

theorem largeOffsets_nil : largeOffsets [] = [] := rfl

theorem largeOffsets_cons_large {e : Item} (h : LARGE_OFFSET_THRESHOLD < e.offset)
    (rest : List Item) :
    largeOffsets (e :: rest) = e.offset :: largeOffsets rest := by
  simp [largeOffsets, List.filter_cons, h]

theorem largeOffsets_cons_small {e : Item} (h : ¬ LARGE_OFFSET_THRESHOLD < e.offset)
    (rest : List Item) :
    largeOffsets (e :: rest) = largeOffsets rest := by
  simp [largeOffsets, List.filter_cons, h]

/-- When the accumulated and required large offsets fit under the threshold,
the offset loop succeeds and produces the spec-level tables. -/
theorem offsetTables_success : ∀ (entries : List Item) (acc : List Nat),
    acc.length + (largeOffsets entries).length ≤ LARGE_OFFSET_THRESHOLD →
    offsetTables entries acc =
      some (smallTableBytes acc.length entries, acc ++ largeOffsets entries)
  | [], acc, _ => by
    simp [offsetTables, smallTableBytes, largeOffsets_nil]
  | e :: rest, acc, h => by
    by_cases hl : LARGE_OFFSET_THRESHOLD < e.offset
    · rw [largeOffsets_cons_large hl] at h
      simp only [List.length_cons] at h
      have hlt : acc.length < LARGE_OFFSET_THRESHOLD := by omega
      have hrec := offsetTables_success rest (acc ++ [e.offset])
        (by simp only [List.length_append, List.length_cons, List.length_nil]; omega)
      simp only [offsetTables, if_pos hl, if_pos hlt, hrec, Option.map_some']
      rw [largeOffsets_cons_large hl]
      simp only [List.length_append, List.length_cons, List.length_nil,
        Nat.add_sub_cancel]
      have hsm : smallTableBytes acc.length (e :: rest) =
          be32 (acc.length ||| HIGH_BIT) ++ smallTableBytes (acc.length + 1) rest := by
        simp [smallTableBytes, hl]
      rw [hsm]
      simp [List.append_assoc]
    · rw [largeOffsets_cons_small hl] at h
      have hrec := offsetTables_success rest acc h
      simp only [offsetTables, if_neg hl, hrec, Option.map_some']
      rw [largeOffsets_cons_small hl]
      have hsm : smallTableBytes acc.length (e :: rest) =
          be32 e.offset ++ smallTableBytes acc.length rest := by
        simp [smallTableBytes, hl]
      rw [hsm]

/-- When more large offsets are required than the assert allows, the offset
loop fails. -/
theorem offsetTables_failure : ∀ (entries : List Item) (acc : List Nat),
    acc.length ≤ LARGE_OFFSET_THRESHOLD →
    LARGE_OFFSET_THRESHOLD < acc.length + (largeOffsets entries).length →
    offsetTables entries acc = none
  | [], acc, hle, hgt => by
    rw [largeOffsets_nil] at hgt
    simp at hgt
    omega
  | e :: rest, acc, hle, hgt => by
    by_cases hl : LARGE_OFFSET_THRESHOLD < e.offset
    · by_cases hlt : acc.length < LARGE_OFFSET_THRESHOLD
      · rw [largeOffsets_cons_large hl] at hgt
        simp only [List.length_cons] at hgt
        have hrec := offsetTables_failure rest (acc ++ [e.offset])
          (by simp only [List.length_append, List.length_cons, List.length_nil]; omega)
          (by simp only [List.length_append, List.length_cons, List.length_nil]; omega)
        simp [offsetTables, hl, hlt, hrec]
      · simp [offsetTables, hl, hlt]
    · rw [largeOffsets_cons_small hl] at hgt
      have hrec := offsetTables_failure rest acc hle hgt
      simp [offsetTables, hl, hrec]

theorem smallTableBytes_length : ∀ (entries : List Item) (base : Nat),
    (smallTableBytes base entries).length = 4 * entries.length
  | [], _ => rfl
  | e :: rest, base => by
    by_cases hl : LARGE_OFFSET_THRESHOLD < e.offset <;>
      simp [smallTableBytes, hl, be32, smallTableBytes_length rest, List.length_cons] <;>
      omega

/-- The small-offset table splits around any entry: the bytes for the earlier
entries, then the 4-byte group of the entry, then the rest. -/
theorem smallTableBytes_append (e : Item) (post : List Item) :
    ∀ (pre : List Item) (base : Nat),
      smallTableBytes base (pre ++ e :: post) =
        smallTableBytes base pre ++
        be32 (if LARGE_OFFSET_THRESHOLD < e.offset
          then (base + (largeOffsets pre).length) ||| HIGH_BIT else e.offset) ++
        smallTableBytes (base + (largeOffsets pre).length +
          (if LARGE_OFFSET_THRESHOLD < e.offset then 1 else 0)) post
  | [], base => by
    by_cases hl : LARGE_OFFSET_THRESHOLD < e.offset <;>
      simp [smallTableBytes, hl, largeOffsets_nil]
  | p :: pre, base => by
    by_cases hp : LARGE_OFFSET_THRESHOLD < p.offset
    · have h1 : smallTableBytes base ((p :: pre) ++ e :: post) =
          be32 (base ||| HIGH_BIT) ++ smallTableBytes (base + 1) (pre ++ e :: post) := by
        simp [smallTableBytes, hp]
      have h2 : smallTableBytes base (p :: pre) =
          be32 (base ||| HIGH_BIT) ++ smallTableBytes (base + 1) pre := by
        simp [smallTableBytes, hp]
      rw [h1, h2, smallTableBytes_append e post pre (base + 1),
        largeOffsets_cons_large hp]
      simp only [List.length_cons, List.append_assoc]
      have ha : base + 1 + (largeOffsets pre).length =
          base + ((largeOffsets pre).length + 1) := by
        omega
      rw [ha]
    · have h1 : smallTableBytes base ((p :: pre) ++ e :: post) =
          be32 p.offset ++ smallTableBytes base (pre ++ e :: post) := by
        simp [smallTableBytes, hp]
      have h2 : smallTableBytes base (p :: pre) =
          be32 p.offset ++ smallTableBytes base pre := by
        simp [smallTableBytes, hp]
      rw [h1, h2, smallTableBytes_append e post pre base,
        largeOffsets_cons_small hp]
      simp only [List.append_assoc]

theorem largeOffsets_append (pre post : List Item) :
    largeOffsets (pre ++ post) = largeOffsets pre ++ largeOffsets post := by
  simp [largeOffsets, List.filter_append]

theorem largeOffsets_replicate (n : Nat) (e : Item)
    (h : LARGE_OFFSET_THRESHOLD < e.offset) :
    largeOffsets (List.replicate n e) = List.replicate n e.offset := by
  induction n with
  | zero => rfl
  | succ n ih => simp [List.replicate_succ, largeOffsets_cons_large h, ih]

/-- Claim C5: in the small-offset table, an entry with offset at most
`0x7FFFFFFF` stores the offset itself; a larger one stores `0x80000000 | k`
with `k` the zero-based index of its offset in the large-offset table, which
lists the large offsets in first-reference order; each insertion is guarded by
the assert that fewer than `0x7FFFFFFF` large offsets exist so far. -/
theorem write_to_offset_tables (entries : List Item) (small offsets64 : List Nat)
    (h : offsetTables entries [] = some (small, offsets64)) :
    offsets64 = largeOffsets entries ∧
    small = smallTableBytes 0 entries ∧
    (largeOffsets entries).length ≤ LARGE_OFFSET_THRESHOLD ∧
    ∀ pre e post, entries = pre ++ e :: post →
      ∃ s2, small = smallTableBytes 0 pre ++ be32 (smallOffsetValue pre e) ++ s2 ∧
        (smallTableBytes 0 pre).length = 4 * pre.length ∧
        (LARGE_OFFSET_THRESHOLD < e.offset →
          smallOffsetValue pre e = HIGH_BIT ||| (largeOffsets pre).length ∧
          largeOffsets entries = largeOffsets pre ++ e.offset :: largeOffsets post) ∧
        (e.offset ≤ LARGE_OFFSET_THRESHOLD → smallOffsetValue pre e = e.offset) := by
  have hle : (largeOffsets entries).length ≤ LARGE_OFFSET_THRESHOLD := by
    by_contra hgt
    rw [offsetTables_failure entries [] (Nat.zero_le _)
      (by simpa using Nat.lt_of_not_le hgt)] at h
    exact Option.noConfusion h
  rw [offsetTables_success entries [] (by simpa using hle)] at h
  have hsmall : small = smallTableBytes 0 entries := by
    have := congrArg (fun o => o.map Prod.fst) h
    simpa using this.symm
  have hoff : offsets64 = largeOffsets entries := by
    have := congrArg (fun o => o.map Prod.snd) h
    simpa using this.symm
  refine ⟨hoff, hsmall, hle, ?_⟩
  intro pre e post hsplit
  subst hsplit
  refine ⟨smallTableBytes ((largeOffsets pre).length +
      (if LARGE_OFFSET_THRESHOLD < e.offset then 1 else 0)) post, ?_,
    smallTableBytes_length pre 0, ?_, ?_⟩
  · rw [hsmall, smallTableBytes_append e post pre 0]
    unfold smallOffsetValue
    simp
  · intro hl
    constructor
    · unfold smallOffsetValue
      rw [if_pos hl, Nat.lor_comm]
    · rw [largeOffsets_append, largeOffsets_cons_large hl]
  · intro hs
    unfold smallOffsetValue
    rw [if_neg (Nat.not_lt.mpr hs)]

/-- Sample entries containing one large pack offset. -/
def entriesLarge : List Item := [⟨5, ⟨[1, 170], 10⟩⟩, ⟨2147483648, ⟨[2, 187], 11⟩⟩]

theorem write_to_offset_tables_witness :
    [2147483648] = largeOffsets entriesLarge ∧
    [0, 0, 0, 5, 128, 0, 0, 0] = smallTableBytes 0 entriesLarge ∧
    (largeOffsets entriesLarge).length ≤ LARGE_OFFSET_THRESHOLD ∧
    ∀ pre e post, entriesLarge = pre ++ e :: post →
      ∃ s2, [0, 0, 0, 5, 128, 0, 0, 0] =
          smallTableBytes 0 pre ++ be32 (smallOffsetValue pre e) ++ s2 ∧
        (smallTableBytes 0 pre).length = 4 * pre.length ∧
        (LARGE_OFFSET_THRESHOLD < e.offset →
          smallOffsetValue pre e = HIGH_BIT ||| (largeOffsets pre).length ∧
          largeOffsets entriesLarge = largeOffsets pre ++ e.offset :: largeOffsets post) ∧
        (e.offset ≤ LARGE_OFFSET_THRESHOLD → smallOffsetValue pre e = e.offset) :=
  write_to_offset_tables entriesLarge [0, 0, 0, 5, 128, 0, 0, 0] [2147483648] (by decide)

/-- Claim C4: the v2 encoder emits, in order, the signature, the big-endian
version, the 256-entry fan-out, the ids, the big-endian CRC32 table, the
small-offset table, the large-offset table and the pack hash, followed by an
index trailing hash that is the digest of all preceding bytes, and returns
exactly that index hash. -/
theorem write_to_layout (entries : List Item) (pack_hash : List Nat)
    (digest : List Nat → List Nat)
    (hsorted : List.Pairwise (fun a b => idLe a.data.id b.data.id) entries)
    (hbyte : ∀ e ∈ entries, first_byte e.data.id < 256)
    (hcount : entries.length ≤ U32_MAX)
    (hlarge : (largeOffsets entries).length ≤ LARGE_OFFSET_THRESHOLD) :
    ∃ body,
      body = V2_SIGNATURE ++ be32 2
        ++ (((List.range 256).map
              (countLe (entries.map (fun e => first_byte e.data.id)))).map be32).flatten
        ++ (entries.map (fun e => e.data.id)).flatten
        ++ (entries.map (fun e => be32 e.data.crc32)).flatten
        ++ smallTableBytes 0 entries
        ++ ((largeOffsets entries).map be64).flatten
        ++ pack_hash ∧
      write_to entries pack_hash Version.V2 digest = some (body ++ digest body, digest body) := by
  have hs : List.Pairwise (· ≤ ·) (entries.map (fun e => first_byte e.data.id)) :=
    hsorted.map _ (fun a b h => idLe_first_byte h)
  have hlt : ∀ x ∈ entries.map (fun e => first_byte e.data.id), x < 256 := by
    intro x hx
    rcases List.mem_map.mp hx with ⟨e, he, hex⟩
    exact hex ▸ hbyte e he
  refine ⟨_, rfl, ?_⟩
  unfold write_to
  rw [if_neg (by simp), if_neg (Nat.not_lt.mpr hcount),
    fanout_eq_map_countLe _ hs hlt,
    offsetTables_success entries [] (by simpa using hlarge)]
  rfl

/-- A concrete stand-in for the object-hash function used by witnesses. -/
def sampleDigest (l : List Nat) : List Nat := List.replicate 20 (l.length % 256)

theorem write_to_layout_witness :
    ∃ body,
      body = V2_SIGNATURE ++ be32 2
        ++ (((List.range 256).map
              (countLe (entriesLarge.map (fun e => first_byte e.data.id)))).map be32).flatten
        ++ (entriesLarge.map (fun e => e.data.id)).flatten
        ++ (entriesLarge.map (fun e => be32 e.data.crc32)).flatten
        ++ smallTableBytes 0 entriesLarge
        ++ ((largeOffsets entriesLarge).map be64).flatten
        ++ [9, 9] ∧
      write_to entriesLarge [9, 9] Version.V2 sampleDigest =
        some (body ++ sampleDigest body, sampleDigest body) :=
  write_to_layout entriesLarge [9, 9] sampleDigest
    (by
      refine List.Pairwise.cons ?_ (List.pairwise_singleton _ _)
      intro e he
      rw [List.mem_singleton.mp he]
      exact Or.inr (List.Lex.rel (by omega)))
    (by decide) (by decide) (by decide)

/-- Claim C6: the encoder fails fatally for a non-V2 version, for more than
`u32::MAX` entries, and for a large-offset overflow; under the preconditions
(V2, at most `u32::MAX` entries, fewer than `0x7FFFFFFF` large offsets, valid
sorted input) none of these failure branches fires and the encoder succeeds. -/
theorem write_to_capacity_errors :
    (∀ (entries : List Item) (ph : List Nat) (digest : List Nat → List Nat),
      write_to entries ph Version.V1 digest = none) ∧
    (∀ (entries : List Item) (ph : List Nat) (digest : List Nat → List Nat),
      U32_MAX < entries.length → write_to entries ph Version.V2 digest = none) ∧
    (∀ (entries : List Item) (ph : List Nat) (digest : List Nat → List Nat),
      entries.length ≤ U32_MAX → LARGE_OFFSET_THRESHOLD < (largeOffsets entries).length →
      write_to entries ph Version.V2 digest = none) ∧
    (∀ (entries : List Item) (ph : List Nat) (digest : List Nat → List Nat),
      List.Pairwise (fun a b => idLe a.data.id b.data.id) entries →
      (∀ e ∈ entries, first_byte e.data.id < 256) →
      entries.length ≤ U32_MAX →
      (largeOffsets entries).length < LARGE_OFFSET_THRESHOLD →
      (write_to entries ph Version.V2 digest).isSome = true) := by
  refine ⟨?_, ?_, ?_, ?_⟩
  · intro entries ph digest
    unfold write_to
    rw [if_pos (by simp)]
  · intro entries ph digest hgt
    unfold write_to
    rw [if_neg (by simp), if_pos hgt]
  · intro entries ph digest hcount hlarge
    unfold write_to
    rw [if_neg (by simp), if_neg (Nat.not_lt.mpr hcount)]
    cases hfan : fanout (entries.map (fun e => first_byte e.data.id)) with
    | none => rfl
    | some f =>
      rw [offsetTables_failure entries [] (Nat.zero_le _) (by simpa using hlarge)]
  · intro entries ph digest hsorted hbyte hcount hlarge
    have hs : List.Pairwise (· ≤ ·) (entries.map (fun e => first_byte e.data.id)) :=
      hsorted.map _ (fun a b h => idLe_first_byte h)
    have hlt : ∀ x ∈ entries.map (fun e => first_byte e.data.id), x < 256 := by
      intro x hx
      rcases List.mem_map.mp hx with ⟨e, he, hex⟩
      exact hex ▸ hbyte e he
    unfold write_to
    rw [if_neg (by simp), if_neg (Nat.not_lt.mpr hcount),
      fanout_eq_map_countLe _ hs hlt,
      offsetTables_success entries [] (by simpa using Nat.le_of_lt hlarge)]
    rfl

/-- An item whose offset requires the large-offset table. -/
def bigItem : Item := ⟨2147483648, ⟨[], 0⟩⟩

theorem write_to_capacity_errors_witness :
    write_to [] [] Version.V1 sampleDigest = none ∧
    write_to (List.replicate (U32_MAX + 1) bigItem) [] Version.V2 sampleDigest = none ∧
    write_to (List.replicate (LARGE_OFFSET_THRESHOLD + 1) bigItem) [] Version.V2
      sampleDigest = none ∧
    (write_to entriesLarge [9, 9] Version.V2 sampleDigest).isSome = true :=
  ⟨write_to_capacity_errors.1 [] [] sampleDigest,
   write_to_capacity_errors.2.1 (List.replicate (U32_MAX + 1) bigItem) [] sampleDigest
     (by rw [List.length_replicate]; omega),
   write_to_capacity_errors.2.2.1 (List.replicate (LARGE_OFFSET_THRESHOLD + 1) bigItem)
     [] sampleDigest
     (by rw [List.length_replicate]; decide)
     (by rw [largeOffsets_replicate _ _ (by decide), List.length_replicate]; omega),
   write_to_capacity_errors.2.2.2 entriesLarge [9, 9] sampleDigest
     (by
       refine List.Pairwise.cons ?_ (List.pairwise_singleton _ _)
       intro e he
       rw [List.mem_singleton.mp he]
       exact Or.inr (List.Lex.rel (by omega)))
     (by decide) (by decide) (by decide)⟩

/-! ## bundle/write/mod.rs: the orchestrator

`Bundle::inner_write` receives the shared pack temp file, drives the index
writer (`write_data_iter_to_stream`) and performs final placement.  Its IO
collaborators are modelled by an environment that says which fallible step
succeeds and what the indexing step returns; the function itself is the
faithful sequencing of the source: temp-file creation, indexing, `.keep`
write, pack persist (BufWriter `into_inner` flush plus rename), index
persist.  The file system is observed through the list of files at final
content-addressed paths (temp files auto-remove on drop) and through the
ordered list of placement events. -/

/-- The part of `crate::index::write::Outcome` that `inner_write` consumes:
the content hashes computed while indexing (`data_hash` is the pack trailer
hash naming the final files, `index_hash` the index trailer).  Hashes are
carried in their hex rendering. -/
structure IndexingOutcome where
  data_hash : String
  index_hash : String
  deriving Repr, DecidableEq

/-- Failure points of `inner_write`, in source order. -/
inductive WriteError
  | tempfileCreation
  | indexWrite (msg : String)
  | keepWrite
  | dataPersist
  | indexPersist
  deriving Repr, DecidableEq

/-- The `WriteOutcome` struct of bundle/write/mod.rs. -/
structure WriteOutcome where
  outcome : IndexingOutcome
  data_path : Option String
  index_path : Option String
  keep_path : Option String
  deriving Repr, DecidableEq

/-- Observable placement actions of `inner_write`, in execution order. -/
inductive FsEvent
  | wroteKeep (path : String)
  | persistedPack (path : String)
  | persistedIndex (path : String)
  deriving Repr, DecidableEq

/-- Environment: outcome of each IO collaborator of `inner_write`. -/
structure Env where
  index_tempfile_ok : Bool
  indexing : Except String IndexingOutcome
  keep_write_ok : Bool
  data_persist_ok : Bool
  index_persist_ok : Bool
  deriving Repr

/-- Result of a run of `inner_write`: the returned value, the placement
events in order, the `progress.info` messages, and the files left at final
paths afterwards. -/
structure InnerResult where
  result : Except WriteError WriteOutcome
  events : List FsEvent
  infoMessages : List String
  files : List String
  deriving Repr

/-- Path from `directory.join` of the `pack-` name rendered from the data hash hex. -/
def data_path (dir hash : String) : String := dir ++ "/pack-" ++ hash ++ ".pack"

/-- Path `data_path.with_extension("idx")`; as the hex hash contains no dot this
replaces the `.pack` suffix. -/
def index_path (dir hash : String) : String := dir ++ "/pack-" ++ hash ++ ".idx"

/-- Path `data_path.with_extension("keep")`. -/
def keep_path (dir hash : String) : String := dir ++ "/pack-" ++ hash ++ ".keep"

/-- The message emitted via `progress.info` when persisting the index fails
after the pack was already moved into place. -/
def retained_message (dataPath : String) : String :=
  "pack file at " ++ dataPath ++
    " is retained despite failing to move the index file into place. You can use plumbing to make it usable."

/-- Function `Bundle::inner_write` of bundle/write/mod.rs. -/
def inner_write (directory : Option String) (env : Env) : InnerResult :=
  match directory with
  | some dir =>
    if env.index_tempfile_ok = false then
      ⟨.error .tempfileCreation, [], [], []⟩
    else
      match env.indexing with
      | .error m => ⟨.error (.indexWrite m), [], [], []⟩
      | .ok outcome =>
        let dataPath := data_path dir outcome.data_hash
        let indexPath := index_path dir outcome.data_hash
        let keepPath := keep_path dir outcome.data_hash
        if env.keep_write_ok = false then
          ⟨.error .keepWrite, [], [], []⟩
        else if env.data_persist_ok = false then
          ⟨.error .dataPersist, [.wroteKeep keepPath], [], [keepPath]⟩
        else if env.index_persist_ok = false then
          ⟨.error .indexPersist, [.wroteKeep keepPath, .persistedPack dataPath],
            [retained_message dataPath], [keepPath, dataPath]⟩
        else
          ⟨.ok ⟨outcome, some dataPath, some indexPath, some keepPath⟩,
            [.wroteKeep keepPath, .persistedPack dataPath, .persistedIndex indexPath],
            [], [keepPath, dataPath, indexPath]⟩
  | none =>
    match env.indexing with
    | .error m => ⟨.error (.indexWrite m), [], [], []⟩
    | .ok outcome => ⟨.ok ⟨outcome, none, none, none⟩, [], [], []⟩

/-- The caller-facing `Outcome` of `write_to_directory`. -/
structure Outcome where
  index : IndexingOutcome
  pack_version : Nat
  data_path : Option String
  index_path : Option String
  keep_path : Option String
  deriving Repr, DecidableEq

/-- Function `Bundle::write_to_directory`, restricted to what happens from
`inner_write` on: it forwards `directory`, and copies the `WriteOutcome`
fields into the caller-facing `Outcome` verbatim. -/
def write_to_directory (directory : Option String) (env : Env)
    (pack_version : Nat) : Except WriteError Outcome × List FsEvent × List String :=
  let r := inner_write directory env
  match r.result with
  | .error e => (.error e, r.events, r.files)
  | .ok w =>
    (.ok ⟨w.outcome, pack_version, w.data_path, w.index_path, w.keep_path⟩,
      r.events, r.files)

/-- Claim C1: with a directory and successful indexing, final placement
happens in the order `.keep` write, pack persist, index persist; and when the
index persist fails after the pack persist succeeded, the call returns an
error, the pack file remains at its final path, and the emitted message
contains that pack path. -/
theorem inner_write_placement (dir : String) (env : Env) (o : IndexingOutcome)
    (h1 : env.index_tempfile_ok = true) (h2 : env.indexing = .ok o)
    (h3 : env.keep_write_ok = true) (h4 : env.data_persist_ok = true) :
    (env.index_persist_ok = true →
      (inner_write (some dir) env).events =
        [.wroteKeep (keep_path dir o.data_hash),
         .persistedPack (data_path dir o.data_hash),
         .persistedIndex (index_path dir o.data_hash)]) ∧
    (env.index_persist_ok = false →
      (inner_write (some dir) env).result = .error .indexPersist ∧
      data_path dir o.data_hash ∈ (inner_write (some dir) env).files ∧
      (inner_write (some dir) env).events =
        [.wroteKeep (keep_path dir o.data_hash),
         .persistedPack (data_path dir o.data_hash)] ∧
      ∃ pre post, (inner_write (some dir) env).infoMessages =
        [pre ++ data_path dir o.data_hash ++ post]) := by
  constructor
  · intro h5
    simp [inner_write, h1, h2, h3, h4, h5]
  · intro h5
    refine ⟨?_, ?_, ?_, "pack file at ",
      " is retained despite failing to move the index file into place. You can use plumbing to make it usable.", ?_⟩ <;>
      simp [inner_write, h1, h2, h3, h4, h5, retained_message]

/-- Environment in which every IO step succeeds. -/
def envAllOk : Env := ⟨true, .ok ⟨"abc", "def"⟩, true, true, true⟩

/-- Environment in which only the final index persist fails. -/
def envIndexFail : Env := ⟨true, .ok ⟨"abc", "def"⟩, true, true, false⟩

theorem inner_write_placement_witness :
    (envIndexFail.index_persist_ok = true →
      (inner_write (some "objects") envIndexFail).events =
        [.wroteKeep (keep_path "objects" "abc"),
         .persistedPack (data_path "objects" "abc"),
         .persistedIndex (index_path "objects" "abc")]) ∧
    (envIndexFail.index_persist_ok = false →
      (inner_write (some "objects") envIndexFail).result = .error .indexPersist ∧
      data_path "objects" "abc" ∈ (inner_write (some "objects") envIndexFail).files ∧
      (inner_write (some "objects") envIndexFail).events =
        [.wroteKeep (keep_path "objects" "abc"),
         .persistedPack (data_path "objects" "abc")] ∧
      ∃ pre post, (inner_write (some "objects") envIndexFail).infoMessages =
        [pre ++ data_path "objects" "abc" ++ post]) :=
  inner_write_placement "objects" envIndexFail ⟨"abc", "def"⟩ rfl rfl rfl rfl

/-- Counterexample to claim C2 as stated: in the run where every step up to
the pack persist succeeds and the index persist then fails, the final pack
rename has already happened (the pack sits at its final path) while the index
was never persisted — so the pack is not persisted only after a successful
index persist. -/
theorem pack_before_index_counterexample :
    (inner_write (some "objects") envIndexFail).events =
      [.wroteKeep (keep_path "objects" "abc"),
       .persistedPack (data_path "objects" "abc")] ∧
    (inner_write (some "objects") envIndexFail).result = .error .indexPersist ∧
    data_path "objects" "abc" ∈ (inner_write (some "objects") envIndexFail).files ∧
    FsEvent.persistedIndex (index_path "objects" "abc") ∉
      (inner_write (some "objects") envIndexFail).events := by
  refine ⟨rfl, rfl, ?_, ?_⟩ <;> simp [inner_write, envIndexFail]

/-- Claim C2 amended: the pack is persisted to its final name directly after
the `.keep` write and before the index persist is attempted; consequently
there is a state (namely when the subsequent index persist fails) in which the
final pack rename has happened but the index has not been persisted. -/
theorem pack_persisted_before_index (dir : String) (env : Env) (o : IndexingOutcome)
    (h1 : env.index_tempfile_ok = true) (h2 : env.indexing = .ok o)
    (h3 : env.keep_write_ok = true) (h4 : env.data_persist_ok = true) :
    (inner_write (some dir) env).events =
      [.wroteKeep (keep_path dir o.data_hash),
       .persistedPack (data_path dir o.data_hash)] ++
      (if env.index_persist_ok then [.persistedIndex (index_path dir o.data_hash)]
       else []) := by
  by_cases h5 : env.index_persist_ok <;>
    simp [inner_write, h1, h2, h3, h4, h5]

theorem pack_persisted_before_index_witness :
    (inner_write (some "objects") envAllOk).events =
      [.wroteKeep (keep_path "objects" "abc"),
       .persistedPack (data_path "objects" "abc")] ++
      (if envAllOk.index_persist_ok then [.persistedIndex (index_path "objects" "abc")]
       else []) :=
  pack_persisted_before_index "objects" envAllOk ⟨"abc", "def"⟩ rfl rfl rfl rfl

/-- Claim C7: with `directory = None` the operation is validation only: the
returned `Outcome` has `data_path`, `index_path` and `keep_path` all absent,
no file appears at a final content-addressed path and no placement event
happens, while the index outcome (and so its hashes) is the same one the
directory case returns. -/
theorem write_to_directory_none_validation (env : Env) (o : IndexingOutcome)
    (pv : Nat) (h : env.indexing = .ok o) :
    (write_to_directory none env pv).1 = .ok ⟨o, pv, none, none, none⟩ ∧
    (write_to_directory none env pv).2.1 = [] ∧
    (write_to_directory none env pv).2.2 = [] ∧
    (∀ dir, env.index_tempfile_ok = true → env.keep_write_ok = true →
      env.data_persist_ok = true → env.index_persist_ok = true →
      (write_to_directory (some dir) env pv).1 =
        .ok ⟨o, pv, some (data_path dir o.data_hash),
          some (index_path dir o.data_hash), some (keep_path dir o.data_hash)⟩) := by
  refine ⟨?_, ?_, ?_, ?_⟩
  · simp [write_to_directory, inner_write, h]
  · simp [write_to_directory, inner_write, h]
  · simp [write_to_directory, inner_write, h]
  · intro dir h1 h3 h4 h5
    simp [write_to_directory, inner_write, h, h1, h3, h4, h5]

theorem write_to_directory_none_validation_witness :
    (write_to_directory none envAllOk 2).1 = .ok ⟨⟨"abc", "def"⟩, 2, none, none, none⟩ ∧
    (write_to_directory none envAllOk 2).2.1 = [] ∧
    (write_to_directory none envAllOk 2).2.2 = [] ∧
    (∀ dir, envAllOk.index_tempfile_ok = true → envAllOk.keep_write_ok = true →
      envAllOk.data_persist_ok = true → envAllOk.index_persist_ok = true →
      (write_to_directory (some dir) envAllOk 2).1 =
        .ok ⟨⟨"abc", "def"⟩, 2, some (data_path dir "abc"),
          some (index_path dir "abc"), some (keep_path dir "abc")⟩) :=
  write_to_directory_none_validation envAllOk ⟨"abc", "def"⟩ 2 rfl

/-! ## index/traverse/with_index.rs: traversal with index -/

/-- Modelled from the spec: `SafetyCheck` (§6 Options) — its declaration
lives outside these sources; the levels are `All`,
`SkipFileChecksumVerification` and `SkipFileAndObjectChecksumVerification`. -/
inductive SafetyCheck
  | all
  | skipFileChecksumVerification
  | skipFileAndObjectChecksumVerification
  deriving Repr, DecidableEq

/-- Modelled from the spec: `fatal_decode_error()` returns `false` only for
the most permissive level. -/
def SafetyCheck.fatal_decode_error : SafetyCheck → Bool
  | .skipFileAndObjectChecksumVerification => false
  | _ => true

/-- Modelled from the spec: the error taxonomy of §7 as far as
with_index.rs distinguishes it (`index::traverse::Error`, declared outside
these sources); `E` is the processor's error type. -/
inductive TraverseError (E : Type)
  | packDecode (msg : String)
  | packChecksumMismatch
  | indexChecksumMismatch
  | processor (e : E)
  | interrupted
  deriving Repr, DecidableEq

/-- The per-object result policy of `traverse_with_index` (the match on the
`process_entry` result): a `PackDecode` error under a safety level whose
`fatal_decode_error()` is false is logged via `progress.info` and replaced by
`Ok(())`; every other result is passed through. -/
def handle_processor_result {E : Type} (check : SafetyCheck)
    (result : Except (TraverseError E) Unit) (infoLog : List String) :
    Except (TraverseError E) Unit × List String :=
  match result with
  | .error (.packDecode msg) =>
    if check.fatal_decode_error = false then
      (.ok (), infoLog ++ ["Ignoring decode error: " ++ msg])
    else
      (.error (.packDecode msg), infoLog)
  | res => (res, infoLog)

/-- Claim C8: a `PackDecode` error under a level with
`fatal_decode_error() == false` is not propagated — it is logged and the node
returns `Ok`; every other error, and `PackDecode` under a fatal level, is
propagated unchanged with nothing logged. -/
theorem traverse_decode_error_policy {E : Type} (check : SafetyCheck)
    (result : Except (TraverseError E) Unit) (infoLog : List String) :
    (∀ msg, result = .error (.packDecode msg) →
      (check.fatal_decode_error = false →
        handle_processor_result check result infoLog =
          (.ok (), infoLog ++ ["Ignoring decode error: " ++ msg])) ∧
      (check.fatal_decode_error = true →
        handle_processor_result check result infoLog = (result, infoLog))) ∧
    ((∀ msg, result ≠ .error (.packDecode msg)) →
      handle_processor_result check result infoLog = (result, infoLog)) := by
  constructor
  · intro msg h
    subst h
    constructor <;> intro hf <;> simp [handle_processor_result, hf]
  · intro h
    match result with
    | .ok () => rfl
    | .error (.packDecode msg) => exact absurd rfl (h msg)
    | .error .packChecksumMismatch => rfl
    | .error .indexChecksumMismatch => rfl
    | .error (.processor e) => rfl
    | .error .interrupted => rfl

theorem traverse_decode_error_policy_witness :
    (∀ msg, (Except.error (TraverseError.packDecode "bad entry") :
        Except (TraverseError String) Unit) = .error (.packDecode msg) →
      (SafetyCheck.skipFileAndObjectChecksumVerification.fatal_decode_error = false →
        handle_processor_result SafetyCheck.skipFileAndObjectChecksumVerification
          (Except.error (TraverseError.packDecode "bad entry") :
            Except (TraverseError String) Unit) [] =
          (.ok (), [] ++ ["Ignoring decode error: " ++ msg])) ∧
      (SafetyCheck.skipFileAndObjectChecksumVerification.fatal_decode_error = true →
        handle_processor_result SafetyCheck.skipFileAndObjectChecksumVerification
          (Except.error (TraverseError.packDecode "bad entry") :
            Except (TraverseError String) Unit) [] =
          (.error (.packDecode "bad entry"), []))) ∧
    ((∀ msg, (Except.error (TraverseError.packDecode "bad entry") :
        Except (TraverseError String) Unit) ≠ .error (.packDecode msg)) →
      handle_processor_result SafetyCheck.skipFileAndObjectChecksumVerification
        (Except.error (TraverseError.packDecode "bad entry") :
          Except (TraverseError String) Unit) [] =
        (.error (.packDecode "bad entry"), [])) :=
  traverse_decode_error_policy SafetyCheck.skipFileAndObjectChecksumVerification
    (Except.error (TraverseError.packDecode "bad entry") :
      Except (TraverseError String) Unit) []

/-- The verification arm of `parallel::join` in `traverse_with_index`: run
`possibly_verify`, and store `true` into the shared interrupt flag when it
returned an error. -/
def verify_task {E H : Type} (verify_res : Except E H) (interrupt : Bool) :
    Except E H × Bool :=
  (verify_res,
    match verify_res with
    | .error _ => true
    | .ok _ => interrupt)

/-- The combination of the joined results into the returned `Outcome`:
`actual_index_checksum: verify_result?` runs first, then
`statistics: traversal_result?`. -/
def join_outcome {E H S : Type} (verify_result : Except E H)
    (traversal_result : Except E S) : Except E (H × S) :=
  match verify_result with
  | .error e => .error e
  | .ok h =>
    match traversal_result with
    | .error e => .error e
    | .ok s => .ok (h, s)

/-- Claim C9: when the concurrent verification task errs it sets the shared
interrupt flag, and in the joined result the verification error wins — the
function returns it even when the traversal failed as well. -/
theorem verify_error_precedence {E H S : Type} (verify_result : Except E H)
    (traversal_result : Except E S) (interrupt : Bool) :
    ∀ e, verify_result = .error e →
      (verify_task verify_result interrupt).2 = true ∧
      join_outcome verify_result traversal_result = .error e := by
  intro e h
  subst h
  exact ⟨rfl, rfl⟩

theorem verify_error_precedence_witness :
    (verify_task (Except.error "pack checksum mismatch" : Except String Nat)
      false).2 = true ∧
    join_outcome (Except.error "pack checksum mismatch" : Except String Nat)
      (Except.error "traversal failed" : Except String Nat) =
      .error "pack checksum mismatch" :=
  verify_error_precedence (Except.error "pack checksum mismatch")
    (Except.error "traversal failed") false "pack checksum mismatch" rfl

/-- Enumeration `git_object::Kind` as matched in `digest_statistics`. -/
inductive Kind
  | Commit
  | Tree
  | Blob
  | Tag
  deriving Repr, DecidableEq

/-- The fields of the local `Entry` struct of with_index.rs that
`digest_statistics` reads (its `index_entry` is not consulted there). -/
structure EntryData where
  object_kind : Kind
  object_size : Nat
  decompressed_size : Nat
  compressed_size : Nat
  level : Nat
  deriving Repr, DecidableEq

/-- The `average` sub-struct of `index::traverse::Statistics`. -/
structure Averages where
  decompressed_size : Nat
  compressed_size : Nat
  object_size : Nat
  num_deltas : Nat
  deriving Repr, DecidableEq

/-- Structure `index::traverse::Statistics` as populated by `digest_statistics`; the
`objects_per_chain_length` map is modelled as an association list. -/
structure Statistics where
  average : Averages
  total_compressed_entries_size : Nat
  total_decompressed_entries_size : Nat
  total_object_size : Nat
  objects_per_chain_length : List (Nat × Nat)
  num_blobs : Nat
  num_trees : Nat
  num_tags : Nat
  num_commits : Nat
  pack_size : Nat
  deriving Repr, DecidableEq

/-- Value of `Statistics::default()`. -/
def Statistics.init : Statistics := ⟨⟨0, 0, 0, 0⟩, 0, 0, 0, [], 0, 0, 0, 0, 0⟩

/-- Model of `*res.objects_per_chain_length.entry(level).or_insert(0) += 1` on the
association-list model of the map. -/
def bumpChain : List (Nat × Nat) → Nat → List (Nat × Nat)
  | [], k => [(k, 1)]
  | (k2, v) :: rest, k =>
    if k2 = k then (k2, v + 1) :: rest else (k2, v) :: bumpChain rest k

/-- The body of the `for item in roots.iter().chain(children.iter())` loop of
`digest_statistics`. -/
def digest_step (res : Statistics) (item : EntryData) : Statistics :=
  { res with
    total_compressed_entries_size :=
      res.total_compressed_entries_size + item.compressed_size
    total_decompressed_entries_size :=
      res.total_decompressed_entries_size + item.decompressed_size
    total_object_size := res.total_object_size + item.object_size
    objects_per_chain_length := bumpChain res.objects_per_chain_length item.level
    average := { res.average with
      decompressed_size := res.average.decompressed_size + item.decompressed_size
      compressed_size := res.average.compressed_size + item.compressed_size
      object_size := res.average.object_size + item.object_size
      num_deltas := res.average.num_deltas + item.level }
    num_blobs := res.num_blobs + (if item.object_kind = Kind.Blob then 1 else 0)
    num_trees := res.num_trees + (if item.object_kind = Kind.Tree then 1 else 0)
    num_tags := res.num_tags + (if item.object_kind = Kind.Tag then 1 else 0)
    num_commits := res.num_commits + (if item.object_kind = Kind.Commit then 1 else 0) }

/-- Function `digest_statistics` of with_index.rs.  The four trailing `/=` averages
divide by `num_nodes = roots.len() + children.len()` without a zero guard;
Rust integer division by zero panics, which is modelled as `none`. -/
def digest_statistics (roots children : List EntryData) : Option Statistics :=
  let res := (roots ++ children).foldl digest_step Statistics.init
  let num_nodes := roots.length + children.length
  if num_nodes = 0 then none
  else
    some { res with average := {
      decompressed_size := res.average.decompressed_size / num_nodes
      compressed_size := res.average.compressed_size / num_nodes
      object_size := res.average.object_size / num_nodes
      num_deltas := res.average.num_deltas / num_nodes } }

/-- Each pass of the statistics fold adds the item's fields to the running
average accumulators. -/
theorem digest_fold_average : ∀ (l : List EntryData) (init : Statistics),
    (l.foldl digest_step init).average.decompressed_size =
      init.average.decompressed_size + (l.map (fun e => e.decompressed_size)).sum ∧
    (l.foldl digest_step init).average.compressed_size =
      init.average.compressed_size + (l.map (fun e => e.compressed_size)).sum ∧
    (l.foldl digest_step init).average.object_size =
      init.average.object_size + (l.map (fun e => e.object_size)).sum ∧
    (l.foldl digest_step init).average.num_deltas =
      init.average.num_deltas + (l.map (fun e => e.level)).sum
  | [], init => by simp
  | x :: l, init => by
    have ih := digest_fold_average l (digest_step init x)
    simp only [List.foldl_cons, List.map_cons, List.sum_cons]
    refine ⟨?_, ?_, ?_, ?_⟩ <;>
      [rw [ih.1]; rw [ih.2.1]; rw [ih.2.2.1]; rw [ih.2.2.2]] <;>
      simp [digest_step] <;> omega

/-- Claim C10: the statistics aggregation divides the field-wise sums by the
total number of tree nodes with no zero guard, so it returns a `Statistics`
exactly when the pack holds at least one object; on zero nodes the division
by zero makes the operation fail. -/
theorem digest_statistics_requires_nonempty (roots children : List EntryData) :
    (0 < roots.length + children.length →
      ∃ s, digest_statistics roots children = some s ∧
        s.average.decompressed_size =
          ((roots ++ children).map (fun e => e.decompressed_size)).sum /
            (roots.length + children.length) ∧
        s.average.compressed_size =
          ((roots ++ children).map (fun e => e.compressed_size)).sum /
            (roots.length + children.length) ∧
        s.average.object_size =
          ((roots ++ children).map (fun e => e.object_size)).sum /
            (roots.length + children.length) ∧
        s.average.num_deltas =
          ((roots ++ children).map (fun e => e.level)).sum /
            (roots.length + children.length)) ∧
    digest_statistics [] [] = none := by
  constructor
  · intro h
    have hsum := digest_fold_average (roots ++ children) Statistics.init
    have hds : digest_statistics roots children =
        some { (roots ++ children).foldl digest_step Statistics.init with
          average := {
            decompressed_size := ((roots ++ children).foldl digest_step
              Statistics.init).average.decompressed_size /
              (roots.length + children.length)
            compressed_size := ((roots ++ children).foldl digest_step
              Statistics.init).average.compressed_size /
              (roots.length + children.length)
            object_size := ((roots ++ children).foldl digest_step
              Statistics.init).average.object_size /
              (roots.length + children.length)
            num_deltas := ((roots ++ children).foldl digest_step
              Statistics.init).average.num_deltas /
              (roots.length + children.length) } } := by
      unfold digest_statistics
      rw [if_neg (by omega)]
    refine ⟨_, hds, ?_, ?_, ?_, ?_⟩ <;>
      simp only [hsum.1, hsum.2.1, hsum.2.2.1, hsum.2.2.2] <;>
      simp [Statistics.init]
  · rfl

/-- A single root blob used by the statistics witness. -/
def oneBlob : List EntryData := [⟨Kind.Blob, 6, 6, 4, 0⟩]

/-- The empty children vector used by the statistics witness. -/
def noChildren : List EntryData := []

theorem digest_statistics_requires_nonempty_witness :
    0 < oneBlob.length + noChildren.length ∧
    ((0 < oneBlob.length + noChildren.length →
      ∃ s, digest_statistics oneBlob noChildren = some s ∧
        s.average.decompressed_size =
          ((oneBlob ++ noChildren).map (fun e => e.decompressed_size)).sum /
            (oneBlob.length + noChildren.length) ∧
        s.average.compressed_size =
          ((oneBlob ++ noChildren).map (fun e => e.compressed_size)).sum /
            (oneBlob.length + noChildren.length) ∧
        s.average.object_size =
          ((oneBlob ++ noChildren).map (fun e => e.object_size)).sum /
            (oneBlob.length + noChildren.length) ∧
        s.average.num_deltas =
          ((oneBlob ++ noChildren).map (fun e => e.level)).sum /
            (oneBlob.length + noChildren.length)) ∧
      digest_statistics [] [] = none) :=
  ⟨by decide, digest_statistics_requires_nonempty oneBlob noChildren⟩

end Gitoxide
